import Mathlib

/-!
Shallow embedding of the Minesweeper program in `src/main.cpp`.

Grids are lists of lists of booleans (respectively integers), mirroring the
`std::vector<std::vector<bool>>` and `std::vector<std::vector<int>>` members
of the C++ class. Coordinates are integers, as in the C++ (`int row, col`).

An out-of-range `operator[]` access on a `std::vector` has no defined
behavior; the embedding models a read that the C++ performs without a prior
bounds check through `Option`: `none` means the program executed an access
with no defined result. Reads that the C++ only performs under its own
bounds guard are modelled with total default-valued reads, since the guard
makes the default unreachable.

The constructor draws randomness from an internally seeded `std::mt19937`.
The embedding makes those hidden draws explicit: an `entropy` list of pairs
of naturals, one pair per iteration of the placement loop, each component
reduced modulo the number of rows (respectively columns), modelling one draw
from each uniform integer distribution. Exhausting the entropy list while
mines remain to be placed models a placement loop that is still running, so
a constructor that returns `none` for every entropy list is a constructor
that can never complete.

The flood-reveal `while` loop is modelled with explicit fuel; the fuel
`10 * gridSize + 1` is proved sufficient for every well-shaped state, so
`none` from the loop on such states never occurs.
-/

/-- Read a cell of a boolean grid, `false` when out of range. The C++ only
performs the corresponding unchecked reads at indices its guards have
established to be in range. -/
def cellAt (g : List (List Bool)) (r c : Int) : Bool :=
  if 0 ≤ r ∧ 0 ≤ c then (g.getD r.toNat []).getD c.toNat false else false

/-- Read a cell of an integer grid, `0` when out of range. -/
def countsGet (g : List (List Int)) (r c : Int) : Int :=
  if 0 ≤ r ∧ 0 ≤ c then (g.getD r.toNat []).getD c.toNat 0 else 0

/-- Checked read of a boolean grid: `none` models an out-of-range
`std::vector` access, which has no defined behavior in the C++. -/
def cellGet? (g : List (List Bool)) (r c : Int) : Option Bool :=
  if 0 ≤ r ∧ 0 ≤ c then g[r.toNat]?.bind fun row => row[c.toNat]? else none

/-- Write a cell of a boolean grid; out-of-range writes leave the grid
unchanged (the C++ only writes at indices previously read in range). -/
def setCell (g : List (List Bool)) (r c : Int) (v : Bool) : List (List Bool) :=
  if 0 ≤ r ∧ 0 ≤ c then g.set r.toNat ((g.getD r.toNat []).set c.toNat v) else g

/-- Total number of cells of a grid. -/
def gridSize (g : List (List Bool)) : Nat := (g.map List.length).sum

/-- The game state: the private members of the C++ `Minesweeper` class. -/
structure Minesweeper where
  rows : Int
  cols : Int
  num_mines : Int
  minefield : List (List Bool)
  revealed : List (List Bool)
  counts : List (List Int)
deriving DecidableEq, Repr

/-- The nine offsets scanned by the two nested `for (int i = -1; i <= 1; i++)`
loops, in iteration order. The center `(0, 0)` is included, exactly as in the
source. -/
def offsets : List (Int × Int) :=
  [(-1, -1), (-1, 0), (-1, 1), (0, -1), (0, 0), (0, 1), (1, -1), (1, 0), (1, 1)]

/-- The neighbor scan of the constructor: the number of offsets `d` such that
`(r + d.1, c + d.2)` is in range and holds a mine. Mirrors the inner double
loop computing `count`. -/
def countAdjacent (rows cols : Int) (mf : List (List Bool)) (r c : Int) : Int :=
  (offsets.map fun d =>
    if 0 ≤ r + d.1 ∧ r + d.1 < rows ∧ 0 ≤ c + d.2 ∧ c + d.2 < cols ∧
        cellAt mf (r + d.1) (c + d.2) = true then (1 : Int) else 0).sum

/-- The `counts` grid computed by the constructor: `-1` on mines, otherwise
the neighbor scan. -/
def mkCounts (rows cols : Int) (mf : List (List Bool)) : List (List Int) :=
  (List.range rows.toNat).map fun (r : Nat) =>
    (List.range cols.toNat).map fun (c : Nat) =>
      if cellAt mf (r : Int) (c : Int) = true then -1
      else countAdjacent rows cols mf (r : Int) (c : Int)

/-- The mine-placement `while` loop. Each iteration consumes one entropy
pair; a repeated cell is retried, a fresh cell is marked and `placed`
incremented, until `placed < num_mines` fails. `none` when the entropy list
runs out with the condition still true (the C++ loop is still running), or
when a draw lands outside the grid (possible only for a degenerate grid,
where the C++ distributions have no defined behavior). -/
def placeMines (rows cols num_mines : Int) (entropy : List (Nat × Nat))
    (placed : Nat) (mf : List (List Bool)) : Option (List (List Bool)) :=
  if (placed : Int) < num_mines then
    match entropy with
    | [] => none
    | (a, b) :: rest =>
      let r : Int := ((a % rows.toNat : Nat) : Int)
      let c : Int := ((b % cols.toNat : Nat) : Int)
      match cellGet? mf r c with
      | none => none
      | some true => placeMines rows cols num_mines rest placed mf
      | some false => placeMines rows cols num_mines rest (placed + 1) (setCell mf r c true)
  else
    some mf

/-- `std::vector(n, std::vector(m, v))`: `none` when a size is negative
(the conversion to `size_t` makes the construction throw). -/
def mkGrid (rows cols : Int) (v : Bool) : Option (List (List Bool)) :=
  if 0 ≤ rows ∧ 0 ≤ cols then
    some (List.replicate rows.toNat (List.replicate cols.toNat v))
  else none

namespace Minesweeper

/-- The C++ constructor `Minesweeper::Minesweeper`: allocate the grids, run
the placement loop, then compute `counts` for every cell. -/
def construct (rows cols num_mines : Int) (entropy : List (Nat × Nat)) :
    Option Minesweeper :=
  match mkGrid rows cols false with
  | none => none
  | some mf0 =>
    match placeMines rows cols num_mines entropy 0 mf0 with
    | none => none
    | some mf =>
      some { rows := rows, cols := cols, num_mines := num_mines,
             minefield := mf,
             revealed := List.replicate rows.toNat (List.replicate cols.toNat false),
             counts := mkCounts rows cols mf }

/-- `is_game_over`: some in-range cell is a mine and revealed. -/
def is_game_over (g : Minesweeper) : Bool :=
  (List.range g.rows.toNat).any fun (r : Nat) =>
    (List.range g.cols.toNat).any fun (c : Nat) =>
      cellAt g.minefield (r : Int) (c : Int) && cellAt g.revealed (r : Int) (c : Int)

/-- `is_game_won`: no in-range cell is simultaneously a non-mine and hidden. -/
def is_game_won (g : Minesweeper) : Bool :=
  (List.range g.rows.toNat).all fun (r : Nat) =>
    (List.range g.cols.toNat).all fun (c : Nat) =>
      !(!cellAt g.minefield (r : Int) (c : Int) && !cellAt g.revealed (r : Int) (c : Int))

/-- The cells pushed from a zero-count cell `(r, c)`: every offset whose
target is in range, in loop order. Mirrors the guarded `stack.push_back`. -/
def pushNeighbors (rows cols : Int) (r c : Int) : List (Int × Int) :=
  offsets.filterMap fun d =>
    if 0 ≤ r + d.1 ∧ r + d.1 < rows ∧ 0 ≤ c + d.2 ∧ c + d.2 < cols then
      some (r + d.1, c + d.2)
    else none

/-- The flood-reveal `while (!stack.empty())` loop, with explicit fuel. The
head of the list is the back of the C++ vector (`back` / `pop_back` /
`push_back`), so a block of pushes is appended reversed at the head. -/
def floodLoop (cts : List (List Int)) (rows cols : Int) :
    Nat → List (Int × Int) → List (List Bool) → Option (List (List Bool))
  | 0, _, _ => none
  | _ + 1, [], rev => some rev
  | fuel + 1, (r, c) :: stack, rev =>
    if cellAt rev r c = true then
      floodLoop cts rows cols fuel stack rev
    else if countsGet cts r c = 0 then
      floodLoop cts rows cols fuel ((pushNeighbors rows cols r c).reverse ++ stack)
        (setCell rev r c true)
    else
      floodLoop cts rows cols fuel stack (setCell rev r c true)

/-- `reveal(row, col)`. The first unchecked access `minefield[row][col]` is
the checked read `cellGet?`: out of range means the C++ has no defined
behavior (`none`). A mine is revealed alone; otherwise the flood loop runs
seeded with `(row, col)`. -/
def reveal (g : Minesweeper) (row col : Int) : Option Minesweeper :=
  match cellGet? g.minefield row col with
  | none => none
  | some true => some { g with revealed := setCell g.revealed row col true }
  | some false =>
    match floodLoop g.counts g.rows g.cols (10 * gridSize g.revealed + 2)
        [(row, col)] g.revealed with
    | none => none
    | some rev2 => some { g with revealed := rev2 }

/-- One game move: some `reveal` call that completes. -/
def Step (g g2 : Minesweeper) : Prop := ∃ row col, reveal g row col = some g2

/-- States reachable in play: a constructed board followed by finitely many
completed `reveal` calls. -/
def Reachable (g : Minesweeper) : Prop :=
  ∃ rows cols num_mines entropy g0,
    construct rows cols num_mines entropy = some g0 ∧ Relation.ReflTransGen Step g0 g

end Minesweeper

/-! ## Shape and grid lemmas -/

/-- A grid with exactly `rows` rows of `cols` entries each. -/
def Shaped {α : Type} (rows cols : Int) (g : List (List α)) : Prop :=
  g.length = rows.toNat ∧ ∀ row ∈ g, row.length = cols.toNat

/-- Coordinates within the board rectangle. -/
def InRange (rows cols : Int) (p : Int × Int) : Prop :=
  0 ≤ p.1 ∧ p.1 < rows ∧ 0 ≤ p.2 ∧ p.2 < cols

instance (rows cols : Int) (p : Int × Int) : Decidable (InRange rows cols p) := by
  unfold InRange; infer_instance

theorem Shaped.row_length {α : Type} {rows cols : Int} {g : List (List α)}
    (h : Shaped rows cols g) {r : Nat} (hr : r < g.length) :
    (g.getD r []).length = cols.toNat := by
  have hmem : g.getD r [] ∈ g := by
    rw [List.getD_eq_getElem?_getD, List.getElem?_eq_getElem hr]
    exact List.getElem_mem hr
  exact h.2 _ hmem

theorem InRange.row_lt {rows cols : Int} {p : Int × Int} {g : List (List Bool)}
    (hs : Shaped rows cols g) (h : InRange rows cols p) : p.1.toNat < g.length := by
  rw [hs.1]
  exact (Int.toNat_lt_toNat (lt_of_le_of_lt h.1 h.2.1)).mpr h.2.1

theorem InRange.col_lt {rows cols : Int} {p : Int × Int} {g : List (List Bool)}
    (hs : Shaped rows cols g) (h : InRange rows cols p) :
    p.2.toNat < (g.getD p.1.toNat []).length := by
  rw [hs.row_length (h.row_lt hs)]
  exact (Int.toNat_lt_toNat (lt_of_le_of_lt h.2.2.1 h.2.2.2)).mpr h.2.2.2

theorem cellAt_eq_getD {g : List (List Bool)} {r c : Int} (hr : 0 ≤ r) (hc : 0 ≤ c) :
    cellAt g r c = (g.getD r.toNat []).getD c.toNat false := by
  simp [cellAt, hr, hc]

theorem cellGet?_eq_some {rows cols : Int} {g : List (List Bool)} {r c : Int}
    (hs : Shaped rows cols g) (h : InRange rows cols (r, c)) :
    cellGet? g r c = some (cellAt g r c) := by
  have hpos : 0 ≤ r ∧ 0 ≤ c := ⟨h.1, h.2.2.1⟩
  have hr : r.toNat < g.length := h.row_lt hs
  have hrowD : g.getD r.toNat [] = g[r.toNat] := by
    rw [List.getD_eq_getElem?_getD, List.getElem?_eq_getElem hr]; rfl
  have hc : c.toNat < g[r.toNat].length := by rw [← hrowD]; exact h.col_lt hs
  simp only [cellGet?, cellAt, if_pos hpos, List.getElem?_eq_getElem hr,
    Option.some_bind, List.getElem?_eq_getElem hc, hrowD, List.getD_eq_getElem?_getD,
    Option.getD_some]

theorem cellGet?_bounds {g : List (List Bool)} {r c : Int} {x : Bool}
    (h : cellGet? g r c = some x) :
    0 ≤ r ∧ 0 ≤ c ∧ r.toNat < g.length ∧ c.toNat < (g.getD r.toNat []).length ∧
      cellAt g r c = x := by
  by_cases hpos : 0 ≤ r ∧ 0 ≤ c
  · simp only [cellGet?, if_pos hpos] at h
    rcases hrow : g[r.toNat]? with _ | row
    · rw [hrow] at h; simp at h
    · rw [hrow] at h
      simp only [Option.some_bind] at h
      have hrl : r.toNat < g.length := (List.getElem?_eq_some.mp hrow).1
      have hrowD : g.getD r.toNat [] = row := by
        rw [List.getD_eq_getElem?_getD, hrow]; rfl
      have hcl : c.toNat < row.length := (List.getElem?_eq_some.mp h).1
      refine ⟨hpos.1, hpos.2, hrl, by rw [hrowD]; exact hcl, ?_⟩
      rw [cellAt_eq_getD hpos.1 hpos.2, hrowD, List.getD_eq_getElem?_getD, h]
      rfl
  · simp [cellGet?, if_neg hpos] at h

theorem cellGet?_none {g : List (List Bool)} {r c : Int}
    (h : ¬(0 ≤ r ∧ 0 ≤ c ∧ r.toNat < g.length ∧ c.toNat < (g.getD r.toNat []).length)) :
    cellGet? g r c = none := by
  rcases hres : cellGet? g r c with _ | x
  · rfl
  · exact absurd (cellGet?_bounds hres) (by tauto)

theorem cellAt_true_bounds {g : List (List Bool)} {r c : Int} (h : cellAt g r c = true) :
    0 ≤ r ∧ 0 ≤ c ∧ r.toNat < g.length ∧ c.toNat < (g.getD r.toNat []).length := by
  by_cases hpos : 0 ≤ r ∧ 0 ≤ c
  · rw [cellAt_eq_getD hpos.1 hpos.2] at h
    by_cases hr : r.toNat < g.length
    · by_cases hc : c.toNat < (g.getD r.toNat []).length
      · exact ⟨hpos.1, hpos.2, hr, hc⟩
      · rw [List.getD_eq_getElem?_getD (g.getD r.toNat []),
          List.getElem?_eq_none (le_of_not_lt hc)] at h
        simp at h
    · rw [List.getD_eq_getElem?_getD g, List.getElem?_eq_none (le_of_not_lt hr)] at h
      simp at h
  · simp [cellAt, if_neg hpos] at h

theorem setCell_length (g : List (List Bool)) (r c : Int) (v : Bool) :
    (setCell g r c v).length = g.length := by
  unfold setCell; split <;> simp

theorem setCell_shape {rows cols : Int} {g : List (List Bool)} {r c : Int} {v : Bool}
    (hs : Shaped rows cols g) : Shaped rows cols (setCell g r c v) := by
  unfold setCell
  split
  · constructor
    · simp [hs.1]
    · intro row hrow
      rcases List.mem_or_eq_of_mem_set hrow with hin | heq
      · exact hs.2 _ hin
      · subst heq
        rw [List.length_set]
        by_cases hr : r.toNat < g.length
        · exact hs.row_length hr
        · rw [List.getD_eq_getElem?_getD g, List.getElem?_eq_none (le_of_not_lt hr)]
          rw [List.getD_eq_getElem?_getD g, List.getElem?_eq_none (le_of_not_lt hr)] at hrow
          simp only [Option.getD_none] at hrow ⊢
          rw [List.set_eq_of_length_le (by simpa using le_of_not_lt hr)] at hrow
          exact hs.2 _ hrow
  · exact hs

theorem getD_set_self {α : Type} (l : List α) (i : Nat) (x : α) (d : α)
    (h : i < l.length) : (l.set i x).getD i d = x := by
  rw [List.getD_eq_getElem?_getD, List.getElem?_set_eq_of_lt _ h, Option.getD_some]

theorem getD_set_ne {α : Type} (l : List α) {i j : Nat} (x : α) (d : α)
    (h : i ≠ j) : (l.set i x).getD j d = l.getD j d := by
  rw [List.getD_eq_getElem?_getD, List.getElem?_set_ne h, ← List.getD_eq_getElem?_getD]

theorem cellAt_setCell_self {g : List (List Bool)} {r c : Int} {v : Bool}
    (h0r : 0 ≤ r) (h0c : 0 ≤ c) (hr : r.toNat < g.length)
    (hc : c.toNat < (g.getD r.toNat []).length) :
    cellAt (setCell g r c v) r c = v := by
  unfold setCell
  rw [if_pos ⟨h0r, h0c⟩, cellAt_eq_getD h0r h0c, getD_set_self g r.toNat _ _ hr,
    getD_set_self _ c.toNat _ _ hc]

theorem cellAt_setCell_ne {g : List (List Bool)} {r c a b : Int} {v : Bool}
    (h : ¬(a = r ∧ b = c)) : cellAt (setCell g r c v) a b = cellAt g a b := by
  unfold setCell
  split
  case isFalse => rfl
  case isTrue hrc =>
    by_cases hpos : 0 ≤ a ∧ 0 ≤ b
    · rw [cellAt_eq_getD hpos.1 hpos.2, cellAt_eq_getD hpos.1 hpos.2]
      by_cases har : a = r
      · have hbc : b ≠ c := fun hb => h ⟨har, hb⟩
        subst har
        have hbc2 : c.toNat ≠ b.toNat := fun hn => hbc (by
          rw [← Int.toNat_of_nonneg hpos.2, ← Int.toNat_of_nonneg hrc.2, hn])
        by_cases hr : a.toNat < g.length
        · rw [getD_set_self g a.toNat _ _ hr, getD_set_ne _ _ _ hbc2]
        · rw [List.set_eq_of_length_le (le_of_not_lt hr)]
      · have har2 : r.toNat ≠ a.toNat := fun hn => har (by
          rw [← Int.toNat_of_nonneg hpos.1, ← Int.toNat_of_nonneg hrc.1, hn])
        rw [getD_set_ne g _ _ har2]
    · simp [cellAt, if_neg hpos]

theorem cellAt_setCell_mono {g : List (List Bool)} {r c a b : Int}
    (h : cellAt g a b = true) : cellAt (setCell g r c true) a b = true := by
  by_cases hab : a = r ∧ b = c
  · obtain ⟨ha, hb⟩ := hab
    subst ha; subst hb
    obtain ⟨h0a, h0b, hra, hrb⟩ := cellAt_true_bounds h
    exact cellAt_setCell_self h0a h0b hra hrb
  · rw [cellAt_setCell_ne hab]; exact h

theorem cellAt_setCell_cases {g : List (List Bool)} {r c a b : Int}
    (h : cellAt (setCell g r c true) a b = true) :
    cellAt g a b = true ∨ (a = r ∧ b = c) := by
  by_cases hab : a = r ∧ b = c
  · exact Or.inr hab
  · rw [cellAt_setCell_ne hab] at h; exact Or.inl h

/-! ## Counting cells -/

/-- Number of `false` cells of a boolean grid (hidden cells of `revealed`). -/
def falseCount (g : List (List Bool)) : Nat := (g.map fun row => row.count false).sum

/-- Number of `true` cells of a boolean grid (mines of `minefield`). -/
def trueCount (g : List (List Bool)) : Nat := (g.map fun row => row.count true).sum

theorem count_set_of_getD {row : List Bool} {j : Nat} {v : Bool}
    (hj : j < row.length) (hv : row.getD j false = (!v)) :
    (row.set j v).count v = row.count v + 1 ∧
      (row.set j v).count (!v) + 1 = row.count (!v) := by
  induction row generalizing j with
  | nil => simp at hj
  | cons x xs ih =>
    cases j with
    | zero =>
      simp only [List.getD_cons_zero] at hv
      subst hv
      simp [List.count_cons, Bool.beq_not_self]
    | succ j =>
      simp only [List.getD_cons_succ] at hv
      have := ih (by simpa using hj) hv
      simp only [List.set_cons_succ, List.count_cons]
      omega

theorem set_getElem_self {α : Type} (l : List α) (i : Nat) (h : i < l.length) :
    l.set i l[i] = l := by
  apply List.ext_getElem?
  intro n
  by_cases hn : n = i
  · subst hn
    rw [List.getElem?_set_eq_of_lt _ h, List.getElem?_eq_getElem h]
  · rw [List.getElem?_set_ne (fun hh => hn hh.symm)]

theorem gridSize_setCell (g : List (List Bool)) (r c : Int) (v : Bool) :
    gridSize (setCell g r c v) = gridSize g := by
  unfold setCell gridSize
  split
  case isFalse => rfl
  case isTrue h =>
    by_cases hr : r.toNat < g.length
    · have hrow : g.getD r.toNat [] = g[r.toNat] := by
        rw [List.getD_eq_getElem?_getD, List.getElem?_eq_getElem hr]; rfl
      rw [hrow, List.map_set, List.length_set]
      have hlen : r.toNat < (g.map List.length).length := by simpa using hr
      have hval : (g.map List.length)[r.toNat] = g[r.toNat].length := by
        simp
      rw [← hval, set_getElem_self _ _ hlen]
    · rw [List.set_eq_of_length_le (le_of_not_lt hr)]

theorem count_sum_set_row (v : Bool) (g : List (List Bool)) :
    ∀ (i : Nat) (row2 : List Bool), i < g.length →
    ((g.set i row2).map fun row => row.count v).sum + (g.getD i []).count v =
      (g.map fun row => row.count v).sum + row2.count v := by
  induction g with
  | nil => intro i row2 hi; simp at hi
  | cons x xs ih =>
    intro i row2 hi
    cases i with
    | zero => simp [List.set_cons_zero]; omega
    | succ i =>
      have := ih i row2 (by simpa using hi)
      simp only [List.set_cons_succ, List.map_cons, List.sum_cons, List.getD_cons_succ]
      omega

theorem falseCount_setCell {g : List (List Bool)} {r c : Int}
    (h0r : 0 ≤ r) (h0c : 0 ≤ c) (hr : r.toNat < g.length)
    (hc : c.toNat < (g.getD r.toNat []).length)
    (hf : cellAt g r c = false) :
    falseCount (setCell g r c true) + 1 = falseCount g := by
  have hgetD : (g.getD r.toNat []).getD c.toNat false = (!true) := by
    rw [cellAt_eq_getD h0r h0c] at hf; simpa using hf
  have hrow := (count_set_of_getD hc hgetD).2
  have hsum := count_sum_set_row (!true) g r.toNat ((g.getD r.toNat []).set c.toNat true) hr
  unfold falseCount setCell
  rw [if_pos ⟨h0r, h0c⟩]
  simp only [Bool.not_true] at hrow hsum
  omega

theorem trueCount_setCell {g : List (List Bool)} {r c : Int}
    (h0r : 0 ≤ r) (h0c : 0 ≤ c) (hr : r.toNat < g.length)
    (hc : c.toNat < (g.getD r.toNat []).length)
    (hf : cellAt g r c = false) :
    trueCount (setCell g r c true) = trueCount g + 1 := by
  have hgetD : (g.getD r.toNat []).getD c.toNat false = (!true) := by
    rw [cellAt_eq_getD h0r h0c] at hf; simpa using hf
  have hrow := (count_set_of_getD hc hgetD).1
  have hsum := count_sum_set_row true g r.toNat ((g.getD r.toNat []).set c.toNat true) hr
  unfold trueCount setCell
  rw [if_pos ⟨h0r, h0c⟩]
  omega

theorem count_sum_le_gridSize (v : Bool) (g : List (List Bool)) :
    (g.map fun row => row.count v).sum ≤ gridSize g := by
  unfold gridSize
  induction g with
  | nil => simp
  | cons x xs ih =>
    simp only [List.map_cons, List.sum_cons]
    exact Nat.add_le_add (List.count_le_length v x) ih

theorem falseCount_le_gridSize (g : List (List Bool)) : falseCount g ≤ gridSize g :=
  count_sum_le_gridSize false g

theorem trueCount_le_gridSize (g : List (List Bool)) : trueCount g ≤ gridSize g :=
  count_sum_le_gridSize true g

namespace Minesweeper

/-! ## Flood loop lemmas -/

theorem pushNeighbors_inRange {rows cols r c : Int} {q : Int × Int}
    (h : q ∈ pushNeighbors rows cols r c) : InRange rows cols q := by
  unfold pushNeighbors at h
  rcases List.mem_filterMap.mp h with ⟨d, _, hd⟩
  by_cases hp : 0 ≤ r + d.1 ∧ r + d.1 < rows ∧ 0 ≤ c + d.2 ∧ c + d.2 < cols
  · rw [if_pos hp] at hd
    cases hd
    exact ⟨hp.1, hp.2.1, hp.2.2.1, hp.2.2.2⟩
  · rw [if_neg hp] at hd
    cases hd

theorem mem_pushNeighbors_of {rows cols r c : Int} {d : Int × Int}
    (hd : d ∈ offsets) (h : InRange rows cols (r + d.1, c + d.2)) :
    (r + d.1, c + d.2) ∈ pushNeighbors rows cols r c := by
  unfold pushNeighbors
  exact List.mem_filterMap.mpr
    ⟨d, hd, by rw [if_pos ⟨h.1, h.2.1, h.2.2.1, h.2.2.2⟩]⟩

theorem pushNeighbors_length_le (rows cols r c : Int) :
    (pushNeighbors rows cols r c).length ≤ 9 :=
  le_trans (List.length_filterMap_le _ _) (by simp [offsets])

theorem floodLoop_mono {cts : List (List Int)} {rows cols : Int} :
    ∀ (fuel : Nat) (stack : List (Int × Int)) (rev rev2 : List (List Bool)),
    floodLoop cts rows cols fuel stack rev = some rev2 →
    ∀ a b : Int, cellAt rev a b = true → cellAt rev2 a b = true := by
  intro fuel
  induction fuel with
  | zero => intro stack rev rev2 h; simp [floodLoop] at h
  | succ fuel ih =>
    intro stack rev rev2 h a b hab
    match stack with
    | [] =>
      simp only [floodLoop, Option.some_inj] at h
      rw [← h]; exact hab
    | (r, c) :: rest =>
      simp only [floodLoop] at h
      split at h
      · exact ih _ _ _ h a b hab
      · split at h
        · exact ih _ _ _ h a b (cellAt_setCell_mono hab)
        · exact ih _ _ _ h a b (cellAt_setCell_mono hab)

theorem floodLoop_shape {cts : List (List Int)} {rows cols : Int} :
    ∀ (fuel : Nat) (stack : List (Int × Int)) (rev rev2 : List (List Bool)),
    Shaped rows cols rev →
    floodLoop cts rows cols fuel stack rev = some rev2 → Shaped rows cols rev2 := by
  intro fuel
  induction fuel with
  | zero => intro stack rev rev2 _ h; simp [floodLoop] at h
  | succ fuel ih =>
    intro stack rev rev2 hs h
    match stack with
    | [] =>
      simp only [floodLoop, Option.some_inj] at h
      rw [← h]; exact hs
    | (r, c) :: rest =>
      simp only [floodLoop] at h
      split at h
      · exact ih _ _ _ hs h
      · split at h
        · exact ih _ _ _ (setCell_shape hs) h
        · exact ih _ _ _ (setCell_shape hs) h

theorem floodLoop_reveals_sub {cts : List (List Int)} {rows cols : Int}
    (P : Int × Int → Prop)
    (hpush : ∀ r c : Int, P (r, c) → countsGet cts r c = 0 →
      ∀ q ∈ pushNeighbors rows cols r c, P q) :
    ∀ (fuel : Nat) (stack : List (Int × Int)) (rev rev2 : List (List Bool)),
    floodLoop cts rows cols fuel stack rev = some rev2 →
    (∀ p ∈ stack, P p) →
    ∀ a b : Int, cellAt rev2 a b = true → cellAt rev a b = true ∨ P (a, b) := by
  intro fuel
  induction fuel with
  | zero => intro stack rev rev2 h; simp [floodLoop] at h
  | succ fuel ih =>
    intro stack rev rev2 h hstack a b hab
    match stack with
    | [] =>
      simp only [floodLoop, Option.some_inj] at h
      rw [← h] at hab
      exact Or.inl hab
    | (r, c) :: rest =>
      simp only [floodLoop] at h
      split at h
      · exact ih _ _ _ h (fun p hp => hstack p (List.mem_cons_of_mem _ hp)) a b hab
      case isFalse hnrev =>
        have hP : P (r, c) := hstack (r, c) (List.mem_cons_self _ _)
        split at h
        case isTrue hzero =>
          rcases ih _ _ _ h (fun p hp => by
            rcases List.mem_append.mp hp with hp1 | hp2
            · exact hpush r c hP hzero p (List.mem_reverse.mp hp1)
            · exact hstack p (List.mem_cons_of_mem _ hp2)) a b hab with hcell | hPab
          · rcases cellAt_setCell_cases hcell with h1 | h2
            · exact Or.inl h1
            · exact Or.inr (h2.1 ▸ h2.2 ▸ hP)
          · exact Or.inr hPab
        case isFalse hnzero =>
          rcases ih _ _ _ h (fun p hp => hstack p (List.mem_cons_of_mem _ hp)) a b hab
            with hcell | hPab
          · rcases cellAt_setCell_cases hcell with h1 | h2
            · exact Or.inl h1
            · exact Or.inr (h2.1 ▸ h2.2 ▸ hP)
          · exact Or.inr hPab

theorem floodLoop_stack_true {cts : List (List Int)} {rows cols : Int} :
    ∀ (fuel : Nat) (stack : List (Int × Int)) (rev rev2 : List (List Bool)),
    Shaped rows cols rev →
    floodLoop cts rows cols fuel stack rev = some rev2 →
    ∀ p ∈ stack, InRange rows cols p → cellAt rev2 p.1 p.2 = true := by
  intro fuel
  induction fuel with
  | zero => intro stack rev rev2 _ h; simp [floodLoop] at h
  | succ fuel ih =>
    intro stack rev rev2 hs h p hp hpr
    match stack with
    | [] => simp at hp
    | (r, c) :: rest =>
      simp only [floodLoop] at h
      rcases List.mem_cons.mp hp with hhead | htail
      · subst hhead
        split at h
        case isTrue hrev => exact floodLoop_mono _ _ _ _ h _ _ hrev
        case isFalse hnrev =>
          have hset : cellAt (setCell rev r c true) r c = true :=
            cellAt_setCell_self hpr.1 hpr.2.2.1 (hpr.row_lt hs) (hpr.col_lt hs)
          split at h
          · exact floodLoop_mono _ _ _ _ h _ _ hset
          · exact floodLoop_mono _ _ _ _ h _ _ hset
      · split at h
        · exact ih _ _ _ hs h p htail hpr
        · split at h
          · exact ih _ _ _ (setCell_shape hs) h p
              (List.mem_append.mpr (Or.inr htail)) hpr
          · exact ih _ _ _ (setCell_shape hs) h p htail hpr

theorem floodLoop_closed {cts : List (List Int)} {rows cols : Int} :
    ∀ (fuel : Nat) (stack : List (Int × Int)) (rev rev2 : List (List Bool)),
    Shaped rows cols rev →
    (∀ p ∈ stack, InRange rows cols p) →
    (∀ r c : Int, InRange rows cols (r, c) → cellAt rev r c = true →
      countsGet cts r c = 0 → ∀ q ∈ pushNeighbors rows cols r c,
        cellAt rev q.1 q.2 = true ∨ q ∈ stack) →
    floodLoop cts rows cols fuel stack rev = some rev2 →
    ∀ r c : Int, InRange rows cols (r, c) → cellAt rev2 r c = true →
      countsGet cts r c = 0 → ∀ q ∈ pushNeighbors rows cols r c,
        cellAt rev2 q.1 q.2 = true := by
  intro fuel
  induction fuel with
  | zero => intro stack rev rev2 _ _ _ h; simp [floodLoop] at h
  | succ fuel ih =>
    intro stack rev rev2 hs hstack hJ h
    match stack with
    | [] =>
      simp only [floodLoop, Option.some_inj] at h
      subst h
      intro r c hrc hrev hz q hq
      rcases hJ r c hrc hrev hz q hq with hgood | hbad
      · exact hgood
      · simp at hbad
    | (rr, cc) :: rest =>
      have hrrcc : InRange rows cols (rr, cc) := hstack _ (List.mem_cons_self _ _)
      simp only [floodLoop] at h
      split at h
      case isTrue hrev =>
        refine ih _ _ _ hs (fun p hp => hstack p (List.mem_cons_of_mem _ hp)) ?_ h
        intro r c hrc hrevrc hz q hq
        rcases hJ r c hrc hrevrc hz q hq with hgood | hmem
        · exact Or.inl hgood
        · rcases List.mem_cons.mp hmem with hqh | hqt
          · exact Or.inl (by rw [hqh]; exact hrev)
          · exact Or.inr hqt
      case isFalse hnrev =>
        have hsetself : cellAt (setCell rev rr cc true) rr cc = true :=
          cellAt_setCell_self hrrcc.1 hrrcc.2.2.1 (hrrcc.row_lt hs) (hrrcc.col_lt hs)
        split at h
        case isTrue hzero =>
          refine ih _ _ _ (setCell_shape hs) ?_ ?_ h
          · intro p hp
            rcases List.mem_append.mp hp with hp1 | hp2
            · exact pushNeighbors_inRange (List.mem_reverse.mp hp1)
            · exact hstack p (List.mem_cons_of_mem _ hp2)
          · intro r c hrc hrevrc hz q hq
            rcases cellAt_setCell_cases hrevrc with hold | hnew
            · rcases hJ r c hrc hold hz q hq with hgood | hmem
              · exact Or.inl (cellAt_setCell_mono hgood)
              · rcases List.mem_cons.mp hmem with hqh | hqt
                · exact Or.inl (by rw [hqh]; exact hsetself)
                · exact Or.inr (List.mem_append.mpr (Or.inr hqt))
            · refine Or.inr (List.mem_append.mpr (Or.inl ?_))
              rw [List.mem_reverse]
              rw [hnew.1, hnew.2] at hq
              exact hq
        case isFalse hnzero =>
          refine ih _ _ _ (setCell_shape hs)
            (fun p hp => hstack p (List.mem_cons_of_mem _ hp)) ?_ h
          intro r c hrc hrevrc hz q hq
          rcases cellAt_setCell_cases hrevrc with hold | hnew
          · rcases hJ r c hrc hold hz q hq with hgood | hmem
            · exact Or.inl (cellAt_setCell_mono hgood)
            · rcases List.mem_cons.mp hmem with hqh | hqt
              · exact Or.inl (by rw [hqh]; exact hsetself)
              · exact Or.inr hqt
          · exact absurd hz (by rw [hnew.1, hnew.2]; exact hnzero)

theorem floodLoop_total {cts : List (List Int)} {rows cols : Int} :
    ∀ (fuel : Nat) (stack : List (Int × Int)) (rev : List (List Bool)),
    Shaped rows cols rev →
    (∀ p ∈ stack, InRange rows cols p) →
    stack.length + 10 * falseCount rev < fuel →
    ∃ rev2, floodLoop cts rows cols fuel stack rev = some rev2 := by
  intro fuel
  induction fuel with
  | zero => intro stack rev _ _ hlt; omega
  | succ fuel ih =>
    intro stack rev hs hstack hlt
    match stack with
    | [] => exact ⟨rev, by simp [floodLoop]⟩
    | (r, c) :: rest =>
      have hrc : InRange rows cols (r, c) := hstack _ (List.mem_cons_self _ _)
      simp only [floodLoop]
      split
      case isTrue hrev =>
        refine ih rest rev hs (fun p hp => hstack p (List.mem_cons_of_mem _ hp)) ?_
        simp only [List.length_cons] at hlt
        omega
      case isFalse hnrev =>
        have hdec : falseCount (setCell rev r c true) + 1 = falseCount rev :=
          falseCount_setCell hrc.1 hrc.2.2.1 (hrc.row_lt hs) (hrc.col_lt hs)
            (Bool.eq_false_iff.mpr (fun hh => hnrev hh))
        split
        case isTrue hzero =>
          refine ih _ _ (setCell_shape hs) ?_ ?_
          · intro p hp
            rcases List.mem_append.mp hp with hp1 | hp2
            · exact pushNeighbors_inRange (List.mem_reverse.mp hp1)
            · exact hstack p (List.mem_cons_of_mem _ hp2)
          · have hpl := pushNeighbors_length_le rows cols r c
            simp only [List.length_append, List.length_reverse, List.length_cons] at hlt ⊢
            omega
        case isFalse hnzero =>
          refine ih rest _ (setCell_shape hs)
            (fun p hp => hstack p (List.mem_cons_of_mem _ hp)) ?_
          simp only [List.length_cons] at hlt
          omega

end Minesweeper

/-! ## Constructor lemmas -/

theorem getD_replicate {α : Type} {n : Nat} {a : α} {i : Nat} {d : α} :
    (List.replicate n a).getD i d = if i < n then a else d := by
  split
  case isTrue h =>
    rw [List.getD_eq_getElem?_getD, List.getElem?_replicate_of_lt h]
    rfl
  case isFalse h =>
    rw [List.getD_eq_getElem?_getD, List.getElem?_eq_none (by simpa using le_of_not_lt h)]
    rfl

theorem cellAt_replicate_false {n m : Nat} {r c : Int} :
    cellAt (List.replicate n (List.replicate m false)) r c = false := by
  unfold cellAt
  split
  case isFalse => rfl
  case isTrue h =>
    rw [getD_replicate]
    split
    · rw [getD_replicate]
      split <;> rfl
    · rfl

theorem shaped_replicate {rows cols : Int} {v : Bool} :
    Shaped rows cols (List.replicate rows.toNat (List.replicate cols.toNat v)) := by
  constructor
  · simp
  · intro row hrow
    rw [List.eq_of_mem_replicate hrow]
    simp

theorem placeMines_shape {rows cols num_mines : Int} :
    ∀ (entropy : List (Nat × Nat)) (placed : Nat) (mf mf2 : List (List Bool)),
    Shaped rows cols mf →
    placeMines rows cols num_mines entropy placed mf = some mf2 →
    Shaped rows cols mf2 := by
  intro entropy
  induction entropy with
  | nil =>
    intro placed mf mf2 hs h
    unfold placeMines at h
    split at h
    · cases h
    · cases h; exact hs
  | cons e rest ih =>
    intro placed mf mf2 hs h
    unfold placeMines at h
    split at h
    · rcases e with ⟨a, b⟩
      simp only at h
      rcases hcell : cellGet? mf ((a % rows.toNat : Nat) : Int) ((b % cols.toNat : Nat) : Int)
        with _ | x
      · rw [hcell] at h; cases h
      · rw [hcell] at h
        cases x
        · exact ih _ _ _ (setCell_shape hs) h
        · exact ih _ _ _ hs h
    · cases h; exact hs

theorem shaped_mkCounts {rows cols : Int} {mf : List (List Bool)} :
    Shaped rows cols (mkCounts rows cols mf) := by
  constructor
  · unfold mkCounts
    rw [List.length_map, List.length_range]
  · intro row hrow
    unfold mkCounts at hrow
    rcases List.mem_map.mp hrow with ⟨r, _, hr⟩
    rw [← hr, List.length_map, List.length_range]

theorem list_sum_zero_of_nonneg {l : List Int} (hsum : l.sum = 0)
    (hpos : ∀ x ∈ l, 0 ≤ x) : ∀ x ∈ l, x = 0 := by
  induction l with
  | nil => simp
  | cons y ys ih =>
    simp only [List.sum_cons] at hsum
    have hy : 0 ≤ y := hpos y (List.mem_cons_self _ _)
    have hys : 0 ≤ ys.sum :=
      List.sum_nonneg (fun x hx => hpos x (List.mem_cons_of_mem _ hx))
    intro x hx
    rcases List.mem_cons.mp hx with hxy | hxys
    · omega
    · exact ih (by omega) (fun z hz => hpos z (List.mem_cons_of_mem _ hz)) x hxys

theorem countsGet_mkCounts {rows cols : Int} {mf : List (List Bool)} {r c : Int}
    (h : InRange rows cols (r, c)) :
    countsGet (mkCounts rows cols mf) r c =
      if cellAt mf r c = true then -1 else countAdjacent rows cols mf r c := by
  have h1 : (0 : Int) ≤ r := h.1
  have h2 : r < rows := h.2.1
  have h3 : (0 : Int) ≤ c := h.2.2.1
  have h4 : c < cols := h.2.2.2
  have hr : r.toNat < rows.toNat := by omega
  have hc : c.toNat < cols.toNat := by omega
  unfold countsGet mkCounts
  rw [if_pos ⟨h1, h3⟩]
  simp only [List.getD_eq_getElem?_getD, List.getElem?_map, List.getElem?_range, hr, hc,
    if_true, Option.map_some', Option.getD_some]
  rw [Int.toNat_of_nonneg h1, Int.toNat_of_nonneg h3]

theorem countAdjacent_nonneg_terms {rows cols : Int} {mf : List (List Bool)} {r c : Int} :
    ∀ x ∈ offsets.map (fun d =>
      if 0 ≤ r + d.1 ∧ r + d.1 < rows ∧ 0 ≤ c + d.2 ∧ c + d.2 < cols ∧
          cellAt mf (r + d.1) (c + d.2) = true then (1 : Int) else 0), 0 ≤ x := by
  intro x hx
  rcases List.mem_map.mp hx with ⟨d, _, hd⟩
  rw [← hd]
  split <;> omega

theorem countAdjacent_zero {rows cols : Int} {mf : List (List Bool)} {r c : Int}
    (h : countAdjacent rows cols mf r c = 0) :
    ∀ q ∈ Minesweeper.pushNeighbors rows cols r c, cellAt mf q.1 q.2 = false := by
  intro q hq
  unfold Minesweeper.pushNeighbors at hq
  rcases List.mem_filterMap.mp hq with ⟨d, hd, hdq⟩
  by_cases hp : 0 ≤ r + d.1 ∧ r + d.1 < rows ∧ 0 ≤ c + d.2 ∧ c + d.2 < cols
  case neg => rw [if_neg hp] at hdq; cases hdq
  rw [if_pos hp] at hdq
  cases hdq
  by_contra hmine
  have hmine2 : cellAt mf (r + d.1) (c + d.2) = true := by
    cases hcell : cellAt mf (r + d.1) (c + d.2)
    · exact absurd hcell hmine
    · rfl
  have hterm : (if 0 ≤ r + d.1 ∧ r + d.1 < rows ∧ 0 ≤ c + d.2 ∧ c + d.2 < cols ∧
      cellAt mf (r + d.1) (c + d.2) = true then (1 : Int) else 0) = 0 := by
    refine list_sum_zero_of_nonneg h countAdjacent_nonneg_terms _ ?_
    exact List.mem_map_of_mem _ hd
  rw [if_pos ⟨hp.1, hp.2.1, hp.2.2.1, hp.2.2.2, hmine2⟩] at hterm
  cases hterm

namespace Minesweeper

/-! ## Game invariants -/

/-- `(r, c)` lies on the board of `g`. -/
def InBounds (g : Minesweeper) (r c : Int) : Prop := InRange g.rows g.cols (r, c)

instance (g : Minesweeper) (r c : Int) : Decidable (InBounds g r c) := by
  unfold InBounds; infer_instance

/-- All three grids have the `rows × cols` shape, with nonnegative sizes. -/
def WellShaped (g : Minesweeper) : Prop :=
  0 ≤ g.rows ∧ 0 ≤ g.cols ∧ Shaped g.rows g.cols g.minefield ∧
    Shaped g.rows g.cols g.revealed ∧ Shaped g.rows g.cols g.counts

/-- The `counts` grid is the one the constructor computes from `minefield`. -/
def WellCounted (g : Minesweeper) : Prop :=
  g.counts = mkCounts g.rows g.cols g.minefield

/-- Every revealed zero-count cell has all its in-range neighbors revealed. -/
def ZeroClosed (g : Minesweeper) : Prop :=
  ∀ r c : Int, InBounds g r c → cellAt g.revealed r c = true →
    countsGet g.counts r c = 0 →
    ∀ q ∈ pushNeighbors g.rows g.cols r c, cellAt g.revealed q.1 q.2 = true

/-- The state invariant maintained by construction and by `reveal`. -/
def Inv (g : Minesweeper) : Prop := WellShaped g ∧ WellCounted g ∧ ZeroClosed g

theorem construct_shaped {rows cols num_mines : Int} {entropy : List (Nat × Nat)}
    {g : Minesweeper}
    (h : construct rows cols num_mines entropy = some g) :
    g.rows = rows ∧ g.cols = cols ∧ WellShaped g ∧ WellCounted g ∧
      (∀ a b : Int, cellAt g.revealed a b = false) := by
  unfold construct at h
  rcases hmk : mkGrid rows cols false with _ | mf0
  · rw [hmk] at h; cases h
  · rw [hmk] at h
    dsimp only at h
    rcases hpl : placeMines rows cols num_mines entropy 0 mf0 with _ | mf
    · rw [hpl] at h; cases h
    · rw [hpl] at h
      cases h
      unfold mkGrid at hmk
      split at hmk
      case isFalse => cases hmk
      case isTrue hpos =>
        cases hmk
        refine ⟨rfl, rfl, ⟨hpos.1, hpos.2, ?_, shaped_replicate, shaped_mkCounts⟩,
          rfl, fun a b => cellAt_replicate_false⟩
        exact placeMines_shape _ _ _ _ shaped_replicate hpl

theorem construct_inv {rows cols num_mines : Int} {entropy : List (Nat × Nat)}
    {g : Minesweeper} (h : construct rows cols num_mines entropy = some g) : Inv g := by
  obtain ⟨_, _, hws, hwc, hrev⟩ := construct_shaped h
  refine ⟨hws, hwc, fun r c _ hcell _ _ _ => ?_⟩
  rw [hrev r c] at hcell
  cases hcell

/-! ## Reveal lemmas -/

theorem reveal_cases {g g2 : Minesweeper} {r c : Int}
    (h : reveal g r c = some g2) :
    (cellGet? g.minefield r c = some true ∧
      g2 = { g with revealed := setCell g.revealed r c true }) ∨
    (cellGet? g.minefield r c = some false ∧
      ∃ rev2, floodLoop g.counts g.rows g.cols (10 * gridSize g.revealed + 2)
        [(r, c)] g.revealed = some rev2 ∧ g2 = { g with revealed := rev2 }) := by
  unfold reveal at h
  rcases hmf : cellGet? g.minefield r c with _ | x
  · rw [hmf] at h; cases h
  · rw [hmf] at h
    cases x
    · rcases hfl : floodLoop g.counts g.rows g.cols (10 * gridSize g.revealed + 2)
        [(r, c)] g.revealed with _ | rev2
      · rw [hfl] at h; cases h
      · rw [hfl] at h
        cases h
        exact Or.inr ⟨rfl, rev2, rfl, rfl⟩
    · cases h
      exact Or.inl ⟨rfl, rfl⟩

theorem reveal_fields {g g2 : Minesweeper} {r c : Int} (h : reveal g r c = some g2) :
    g2.rows = g.rows ∧ g2.cols = g.cols ∧ g2.num_mines = g.num_mines ∧
      g2.minefield = g.minefield ∧ g2.counts = g.counts := by
  rcases reveal_cases h with ⟨_, h2⟩ | ⟨_, _, _, h2⟩ <;> subst h2 <;>
    exact ⟨rfl, rfl, rfl, rfl, rfl⟩

theorem reveal_inBounds {g g2 : Minesweeper} {r c : Int} (hws : WellShaped g)
    (h : reveal g r c = some g2) : InBounds g r c := by
  have hx : ∃ x, cellGet? g.minefield r c = some x := by
    rcases reveal_cases h with ⟨h1, _⟩ | ⟨h1, _⟩ <;> exact ⟨_, h1⟩
  rcases hx with ⟨x, hx⟩
  obtain ⟨h0r, h0c, hrl, hcl, _⟩ := cellGet?_bounds hx
  have hrows : g.minefield.length = g.rows.toNat := hws.2.2.1.1
  have hcols : (g.minefield.getD r.toNat []).length = g.cols.toNat :=
    hws.2.2.1.row_length hrl
  refine ⟨h0r, by omega, h0c, by omega⟩

theorem reveal_total {g : Minesweeper} {r c : Int} (hws : WellShaped g)
    (hb : InBounds g r c) : ∃ g2, reveal g r c = some g2 := by
  have hmf := cellGet?_eq_some hws.2.2.1 hb
  unfold reveal
  rw [hmf]
  rcases hcell : cellAt g.minefield r c
  · have hfuel : (1 : Nat) + 10 * falseCount g.revealed <
        10 * gridSize g.revealed + 2 := by
      have := falseCount_le_gridSize g.revealed
      omega
    obtain ⟨rev2, hfl⟩ := floodLoop_total (10 * gridSize g.revealed + 2) [(r, c)]
      g.revealed hws.2.2.2.1
      (by intro p hp; rcases List.mem_cons.mp hp with h1 | h1
          · subst h1; exact hb
          · simp at h1)
      (by simpa using hfuel)
    rw [hfl]
    exact ⟨_, rfl⟩
  · exact ⟨_, rfl⟩

theorem reveal_mono {g g2 : Minesweeper} {r c : Int} (h : reveal g r c = some g2) :
    ∀ a b : Int, cellAt g.revealed a b = true → cellAt g2.revealed a b = true := by
  intro a b hab
  rcases reveal_cases h with ⟨_, h2⟩ | ⟨_, rev2, hfl, h2⟩ <;> subst h2
  · exact cellAt_setCell_mono hab
  · exact floodLoop_mono _ _ _ _ hfl a b hab

theorem reveal_wellShaped {g g2 : Minesweeper} {r c : Int} (hws : WellShaped g)
    (h : reveal g r c = some g2) : WellShaped g2 := by
  rcases reveal_cases h with ⟨_, h2⟩ | ⟨_, rev2, hfl, h2⟩ <;> subst h2
  · exact ⟨hws.1, hws.2.1, hws.2.2.1, setCell_shape hws.2.2.2.1, hws.2.2.2.2⟩
  · exact ⟨hws.1, hws.2.1, hws.2.2.1, floodLoop_shape _ _ _ _ hws.2.2.2.1 hfl,
      hws.2.2.2.2⟩

theorem reveal_seed {g g2 : Minesweeper} {r c : Int} (hws : WellShaped g)
    (h : reveal g r c = some g2) : cellAt g2.revealed r c = true := by
  have hb := reveal_inBounds hws h
  rcases reveal_cases h with ⟨hmine, h2⟩ | ⟨hsafe, rev2, hfl, h2⟩ <;> subst h2
  · exact cellAt_setCell_self hb.1 hb.2.2.1 (hb.row_lt hws.2.2.2.1)
      (hb.col_lt hws.2.2.2.1)
  · exact floodLoop_stack_true _ _ _ _ hws.2.2.2.1 hfl (r, c)
      (List.mem_cons_self _ _) hb

theorem reveal_safety {g g2 : Minesweeper} {r c : Int} (hws : WellShaped g)
    (hwc : WellCounted g) (hsafe : cellAt g.minefield r c = false)
    (h : reveal g r c = some g2) :
    ∀ a b : Int, cellAt g2.revealed a b = true →
      cellAt g.revealed a b = true ∨
        (InRange g.rows g.cols (a, b) ∧ cellAt g.minefield a b = false) := by
  have hb := reveal_inBounds hws h
  rcases reveal_cases h with ⟨hmine, h2⟩ | ⟨hsafe2, rev2, hfl, h2⟩
  · obtain ⟨_, _, _, _, hcc⟩ := cellGet?_bounds hmine
    rw [hsafe] at hcc
    cases hcc
  · subst h2
    intro a b hab
    refine floodLoop_reveals_sub
      (P := fun p => InRange g.rows g.cols p ∧ cellAt g.minefield p.1 p.2 = false)
      ?_ _ _ _ _ hfl ?_ a b hab
    · intro rr cc hP hzero q hq
      refine ⟨pushNeighbors_inRange hq, ?_⟩
      rw [hwc, countsGet_mkCounts hP.1] at hzero
      split at hzero
      · exact absurd hzero (by norm_num)
      · exact countAdjacent_zero hzero q hq
    · intro p hp
      rcases List.mem_cons.mp hp with h1 | h1
      · subst h1; exact ⟨hb, hsafe⟩
      · simp at h1

theorem reveal_zeroClosed {g g2 : Minesweeper} {r c : Int} (hinv : Inv g)
    (h : reveal g r c = some g2) : ZeroClosed g2 := by
  obtain ⟨hws, hwc, hzc⟩ := hinv
  have hb := reveal_inBounds hws h
  rcases reveal_cases h with ⟨hmine, h2⟩ | ⟨hsafe, rev2, hfl, h2⟩ <;> subst h2
  · intro a b hab hrev hzero q hq
    rcases cellAt_setCell_cases hrev with hold | hnew
    · exact cellAt_setCell_mono (hzc a b hab hold hzero q hq)
    · obtain ⟨_, _, _, _, hcc⟩ := cellGet?_bounds hmine
      rw [hnew.1, hnew.2] at hzero
      rw [hwc, countsGet_mkCounts hb, if_pos hcc] at hzero
      exact absurd hzero (by norm_num)
  · intro a b hab hrev hzero q hq
    refine floodLoop_closed _ _ _ _ hws.2.2.2.1 ?_ ?_ hfl a b hab hrev hzero q hq
    · intro p hp
      rcases List.mem_cons.mp hp with h1 | h1
      · subst h1; exact hb
      · simp at h1
    · intro rr cc hrc hrevrc hz q2 hq2
      exact Or.inl (hzc rr cc hrc hrevrc hz q2 hq2)

theorem step_inv {g g2 : Minesweeper} (hinv : Inv g) (hstep : Step g g2) : Inv g2 := by
  rcases hstep with ⟨r, c, h⟩
  obtain ⟨h1, h2, _, h4, h5⟩ := reveal_fields h
  refine ⟨reveal_wellShaped hinv.1 h, ?_, reveal_zeroClosed hinv h⟩
  show g2.counts = mkCounts g2.rows g2.cols g2.minefield
  rw [h5, h1, h2, h4]
  exact hinv.2.1

theorem reachable_inv {g : Minesweeper} (h : Reachable g) : Inv g := by
  rcases h with ⟨rows, cols, num_mines, entropy, g0, hc, hrtg⟩
  induction hrtg with
  | refl => exact construct_inv hc
  | tail hsteps hstep ih => exact step_inv ih hstep

theorem reachable_step {g g2 : Minesweeper} (h : Reachable g) {r c : Int}
    (hr : reveal g r c = some g2) : Reachable g2 := by
  rcases h with ⟨rows, cols, num_mines, entropy, g0, hc, hrtg⟩
  exact ⟨rows, cols, num_mines, entropy, g0, hc, hrtg.tail ⟨r, c, hr⟩⟩

theorem is_game_over_eq_true {g : Minesweeper} :
    is_game_over g = true ↔ ∃ a b : Nat, a < g.rows.toNat ∧ b < g.cols.toNat ∧
      cellAt g.minefield (a : Int) (b : Int) = true ∧
      cellAt g.revealed (a : Int) (b : Int) = true := by
  unfold is_game_over
  simp only [List.any_eq_true, List.mem_range, Bool.and_eq_true]
  constructor
  · rintro ⟨a, ha, b, hb, h1, h2⟩
    exact ⟨a, b, ha, hb, h1, h2⟩
  · rintro ⟨a, b, ha, hb, h1, h2⟩
    exact ⟨a, ha, b, hb, h1, h2⟩

theorem setCell_already {g : List (List Bool)} {r c : Int}
    (h : cellAt g r c = true) : setCell g r c true = g := by
  obtain ⟨h0r, h0c, hr, hc⟩ := cellAt_true_bounds h
  unfold setCell
  rw [if_pos ⟨h0r, h0c⟩]
  have hgl : (g.getD r.toNat [])[c.toNat] = true := by
    rw [cellAt_eq_getD h0r h0c, List.getD_eq_getElem?_getD,
      List.getElem?_eq_getElem hc, Option.getD_some] at h
    exact h
  have hrow : (g.getD r.toNat []).set c.toNat true = g.getD r.toNat [] := by
    rw [← hgl]
    exact set_getElem_self _ _ hc
  have hgetD : g.getD r.toNat [] = g[r.toNat] := by
    rw [List.getD_eq_getElem?_getD, List.getElem?_eq_getElem hr]
    rfl
  rw [hrow, hgetD, set_getElem_self _ _ hr]

theorem reveal_already {g : Minesweeper} {r c : Int} (hws : WellShaped g)
    (hb : InBounds g r c) (hrev : cellAt g.revealed r c = true) :
    reveal g r c = some g := by
  have hmf := cellGet?_eq_some hws.2.2.1 hb
  unfold reveal
  rw [hmf]
  rcases hcell : cellAt g.minefield r c
  · have h2 : 10 * gridSize g.revealed + 2 = (10 * gridSize g.revealed + 1) + 1 := by
      omega
    rw [h2]
    simp only [floodLoop, hrev, if_true]
  · rw [setCell_already hrev]

/-! ## Mine placement with too many mines never terminates -/

theorem placeMines_never_completes {rows cols num_mines : Int} :
    ∀ (entropy : List (Nat × Nat)) (placed : Nat) (mf : List (List Bool)),
    (gridSize mf : Int) < num_mines →
    placed ≤ trueCount mf →
    placeMines rows cols num_mines entropy placed mf = none := by
  intro entropy
  induction entropy with
  | nil =>
    intro placed mf hsize hp
    have hle := trueCount_le_gridSize mf
    unfold placeMines
    rw [if_pos (by omega)]
  | cons e rest ih =>
    intro placed mf hsize hp
    have hle := trueCount_le_gridSize mf
    unfold placeMines
    rw [if_pos (by omega)]
    rcases e with ⟨a, b⟩
    dsimp only
    rcases hcell : cellGet? mf ((a % rows.toNat : Nat) : Int) ((b % cols.toNat : Nat) : Int)
      with _ | x
    · rfl
    · cases x
      · obtain ⟨h0r, h0c, hrl, hcl, hfalse⟩ := cellGet?_bounds hcell
        refine ih (placed + 1) _ ?_ ?_
        · rw [gridSize_setCell]; exact hsize
        · rw [trueCount_setCell h0r h0c hrl hcl hfalse]; omega
      · exact ih placed mf hsize hp

end Minesweeper

/-! ## Specification-side definitions -/

/-- The eight proper Moore-neighborhood offsets of the specification: the
center cell is excluded ("excluding the cell itself"). -/
def specOffsets : List (Int × Int) :=
  [(-1, -1), (-1, 0), (-1, 1), (0, -1), (0, 1), (1, -1), (1, 0), (1, 1)]

/-- The number of mine cells among the up-to-8 in-range Moore neighbors of
`(r, c)`, excluding the cell itself: the right-hand side of the
count-correctness claim, written from the specification text. -/
def neighborMines (rows cols : Int) (mf : List (List Bool)) (r c : Int) : Int :=
  (specOffsets.map fun d =>
    if 0 ≤ r + d.1 ∧ r + d.1 < rows ∧ 0 ≤ c + d.2 ∧ c + d.2 < cols ∧
        cellAt mf (r + d.1) (c + d.2) = true then (1 : Int) else 0).sum

theorem countAdjacent_eq_neighborMines {rows cols : Int} {mf : List (List Bool)}
    {r c : Int} (hm : cellAt mf r c = false) :
    countAdjacent rows cols mf r c = neighborMines rows cols mf r c := by
  simp [countAdjacent, neighborMines, offsets, specOffsets, hm]

namespace Minesweeper

/-- Moore adjacency as the specification words it: distinct cells whose row
and column indices each differ by at most one. -/
def MooreAdj (p q : Int × Int) : Prop :=
  p ≠ q ∧ (q.1 - p.1).natAbs ≤ 1 ∧ (q.2 - p.2).natAbs ≤ 1

instance (p q : Int × Int) : Decidable (MooreAdj p q) := by
  unfold MooreAdj; infer_instance

/-- `SpecPath g l`: `l` is a nonempty sequence of in-bounds cells in which
consecutive cells are Moore-adjacent. -/
def SpecPath (g : Minesweeper) : List (Int × Int) → Prop
  | [] => False
  | [p] => InBounds g p.1 p.2
  | p :: q :: rest => InBounds g p.1 p.2 ∧ MooreAdj p q ∧ SpecPath g (q :: rest)

/-- The interior cells of a path: every cell except the two endpoints. -/
def interior (l : List (Int × Int)) : List (Int × Int) := (l.drop 1).dropLast

/-- Flood-reachability with the corrected side condition: starting from `p`,
repeatedly step from a cell whose `count` is zero to any in-range cell of its
Moore neighborhood. Along such a path every cell except possibly the last has
`count = 0`. -/
inductive ZPath (g : Minesweeper) : Int × Int → Int × Int → Prop where
  | refl (p : Int × Int) : ZPath g p p
  | step {p q q2 : Int × Int} (h : ZPath g p q)
      (hz : countsGet g.counts q.1 q.2 = 0)
      (hq2 : q2 ∈ pushNeighbors g.rows g.cols q.1 q.2) : ZPath g p q2

instance {α : Type} (rows cols : Int) (g : List (List α)) :
    Decidable (Shaped rows cols g) := by
  unfold Shaped; infer_instance

instance (g : Minesweeper) : Decidable (WellShaped g) := by
  unfold WellShaped; infer_instance

/-! ## Example boards used by witnesses and counterexamples -/

/-- The board `construct 1 1 0 []` produces: one safe hidden cell. -/
def wBoard : Minesweeper :=
  { rows := 1, cols := 1, num_mines := 0, minefield := [[false]],
    revealed := [[false]], counts := [[0]] }

/-- `wBoard` after revealing its only cell. -/
def wBoardR : Minesweeper := { wBoard with revealed := [[true]] }

theorem wBoard_construct : construct 1 1 0 [] = some wBoard := by decide

theorem wBoard_reachable : Reachable wBoard :=
  ⟨1, 1, 0, [], wBoard, wBoard_construct, Relation.ReflTransGen.refl⟩

/-- The board `construct 1 2 1 [(0, 1)]` produces: a safe cell at `(0, 0)`
with count 1, a mine at `(0, 1)`. -/
def exBoard : Minesweeper :=
  { rows := 1, cols := 2, num_mines := 1, minefield := [[false, true]],
    revealed := [[false, false]], counts := [[1, -1]] }

/-- `exBoard` after `reveal(0, 0)`: only the seed is revealed (its count is
`1`, so the flood pushes nothing). -/
def exBoardR : Minesweeper := { exBoard with revealed := [[true, false]] }

theorem exBoard_reachable : Reachable exBoard :=
  ⟨1, 2, 1, [(0, 1)], exBoard, by decide, Relation.ReflTransGen.refl⟩

/-- The board `construct 2 2 1 [(0, 0)]` produces: a mine at `(0, 0)`. -/
def g6Board : Minesweeper :=
  { rows := 2, cols := 2, num_mines := 1, minefield := [[true, false], [false, false]],
    revealed := [[false, false], [false, false]], counts := [[-1, 1], [1, 1]] }

/-! ## The claims -/

/-- Claim C1: after board construction, for every non-mine in-bounds cell
`(r, c)`, `counts[r][c]` equals the number of mine cells among the up-to-8
in-bounds Moore neighbors of `(r, c)`, the cell itself excluded. (The
constructor scans all nine offsets including the center, but the center is
the non-mine cell itself and contributes nothing.) -/
theorem c1_count_correct (rows cols num_mines : Int) (entropy : List (Nat × Nat))
    (g : Minesweeper) (h : construct rows cols num_mines entropy = some g)
    (r c : Int) (hb : InBounds g r c) (hm : cellAt g.minefield r c = false) :
    countsGet g.counts r c = neighborMines g.rows g.cols g.minefield r c := by
  have hwc : WellCounted g := (construct_shaped h).2.2.2.1
  rw [hwc, countsGet_mkCounts hb, if_neg (by simp [hm])]
  exact countAdjacent_eq_neighborMines hm

theorem c1_witness :
    Minesweeper.construct 1 2 1 [(0, 1)] = some exBoard ∧
      countsGet exBoard.counts 0 0 =
        neighborMines exBoard.rows exBoard.cols exBoard.minefield 0 0 :=
  ⟨by decide, c1_count_correct 1 2 1 [(0, 1)] exBoard (by decide) 0 0
    (by decide) (by decide)⟩

/-- Claim C2 (code bug): the constructor performs no validation at all. With
`rows = cols = 3` and `num_mines = 10 > 9 = R·C`, the placement `while` loop
can never terminate, because at most nine cells can ever hold a mine, so
`num_placed < num_mines` stays true forever. In the embedding: no sequence of
random draws, however long, lets the constructor complete. The program hangs
instead of rejecting the configuration and exiting with a non-zero code. -/
theorem c2_invalid_config_never_constructs :
    ∀ entropy : List (Nat × Nat), Minesweeper.construct 3 3 10 entropy = none := by
  intro entropy
  unfold Minesweeper.construct mkGrid
  rw [if_pos (by norm_num : (0 : Int) ≤ 3 ∧ (0 : Int) ≤ 3)]
  dsimp only
  rw [@Minesweeper.placeMines_never_completes 3 3 10 entropy 0 _ (by decide) (by decide)]

/-- Claim C3 (code bug): `reveal` performs no range check before the access
`minefield[row][col]`, so an out-of-range request is an out-of-bounds
`std::vector` access with no defined behavior, modeled as `none`. No user
error is reported, and no defined state results, contradicting "reported as
a user error and leave state unchanged". -/
theorem c3_out_of_range_none (g : Minesweeper) (r c : Int) (hws : WellShaped g)
    (h : ¬ InBounds g r c) : reveal g r c = none := by
  unfold reveal
  have hnone : cellGet? g.minefield r c = none := by
    apply cellGet?_none
    intro hcon
    obtain ⟨h0r, h0c, hrl, hcl⟩ := hcon
    apply h
    have hrows : g.minefield.length = g.rows.toNat := hws.2.2.1.1
    have hcols : (g.minefield.getD r.toNat []).length = g.cols.toNat :=
      hws.2.2.1.row_length hrl
    exact ⟨h0r, by omega, h0c, by omega⟩
  rw [hnone]

theorem c3_witness : Minesweeper.reveal wBoard (-1) 0 = none :=
  c3_out_of_range_none wBoard (-1) 0 (by decide) (by decide)

/-- Claim C4: revealing an in-bounds non-mine cell reveals no mine: every
cell whose `revealed` flag changes during the flood is a non-mine cell, and
`is_game_over()` stays `false` if it was `false` before the call. -/
theorem c4_flood_safety (g g2 : Minesweeper) (r c : Int) (hre : Reachable g)
    (hb : InBounds g r c) (hm : cellAt g.minefield r c = false)
    (h : reveal g r c = some g2) :
    (∀ a b : Int, cellAt g2.revealed a b = true →
      cellAt g.revealed a b = true ∨ cellAt g.minefield a b = false) ∧
    (is_game_over g = false → is_game_over g2 = false) := by
  obtain ⟨hws, hwc, _⟩ := reachable_inv hre
  have hsaf := reveal_safety hws hwc hm h
  constructor
  · intro a b hab
    rcases hsaf a b hab with h1 | h2
    · exact Or.inl h1
    · exact Or.inr h2.2
  · intro hov
    cases hov2 : is_game_over g2
    · rfl
    · exfalso
      rcases is_game_over_eq_true.mp hov2 with ⟨a, b, ha, hb2, hmine, hrev⟩
      obtain ⟨h1, h2c, _, h4, _⟩ := reveal_fields h
      rw [h1] at ha
      rw [h2c] at hb2
      rw [h4] at hmine
      rcases hsaf (a : Int) (b : Int) hrev with hold | hnew
      · have hcontra : is_game_over g = true :=
          is_game_over_eq_true.mpr ⟨a, b, ha, hb2, hmine, hold⟩
        rw [hov] at hcontra
        cases hcontra
      · rw [hnew.2] at hmine
        cases hmine

theorem c4_witness :
    (∀ a b : Int, cellAt wBoardR.revealed a b = true →
      cellAt wBoard.revealed a b = true ∨ cellAt wBoard.minefield a b = false) ∧
    (Minesweeper.is_game_over wBoard = false →
      Minesweeper.is_game_over wBoardR = false) :=
  c4_flood_safety wBoard wBoardR 0 0 wBoard_reachable (by decide) (by decide)
    (by decide)

/-- Claim C5 counterexample: the claim quantifies over paths whose *interior*
cells all have `count = 0`, where the interior excludes both endpoints. On
the board `construct 1 2 1 [(0, 1)]`, after the non-mine reveal at `(0, 0)`,
the two-cell path `[(0, 0), (0, 1)]` has an empty interior, so the claim
demands that the cell `(0, 1)` be revealed — but it is not (it is the mine,
and the seed's count is `1`, so the flood stops at the seed). -/
theorem c5_counterexample :
    construct 1 2 1 [(0, 1)] = some exBoard ∧
    cellAt exBoard.minefield 0 0 = false ∧
    reveal exBoard 0 0 = some exBoardR ∧
    SpecPath exBoard [(0, 0), (0, 1)] ∧
    (∀ p ∈ interior [((0 : Int), (0 : Int)), ((0 : Int), (1 : Int))],
      countsGet exBoard.counts p.1 p.2 = 0) ∧
    cellAt exBoardR.revealed 0 1 = false := by
  refine ⟨by decide, by decide, by decide, ?_, by decide, by decide⟩
  simp only [SpecPath]
  refine ⟨by decide, by decide, by decide⟩

/-- Claim C5 (amended): after `reveal(r, c)` on an in-bounds non-mine cell of
a reachable state, every cell reachable from `(r, c)` by a path under
Moore-neighborhood adjacency in which every cell *except possibly the last*
has `count = 0` is revealed. (The original claim required only the interior
cells — excluding both endpoints — to have count 0; the start cell's count
must be 0 as well, as the counterexample shows.) -/
theorem c5_flood_closure (g g2 : Minesweeper) (r c : Int) (hre : Reachable g)
    (hb : InBounds g r c) (hm : cellAt g.minefield r c = false)
    (h : reveal g r c = some g2) :
    ∀ q : Int × Int, ZPath g (r, c) q → cellAt g2.revealed q.1 q.2 = true := by
  have hinv := reachable_inv hre
  have hre2 : Reachable g2 := reachable_step hre h
  have hzc2 : ZeroClosed g2 := (reachable_inv hre2).2.2
  obtain ⟨hrw, hcl, _, _, hct⟩ := reveal_fields h
  have hseed : cellAt g2.revealed r c = true := reveal_seed hinv.1 h
  have main : ∀ q : Int × Int, ZPath g (r, c) q →
      InRange g.rows g.cols q ∧ cellAt g2.revealed q.1 q.2 = true := by
    intro q hq
    induction hq with
    | refl => exact ⟨hb, hseed⟩
    | step hpath hz hq2 ih =>
      refine ⟨pushNeighbors_inRange hq2, ?_⟩
      refine hzc2 _ _ ?_ ih.2 ?_ _ ?_
      · show InRange g2.rows g2.cols _
        rw [hrw, hcl]
        exact ih.1
      · rw [hct]
        exact hz
      · rw [hrw, hcl]
        exact hq2
  intro q hq
  exact (main q hq).2

theorem c5_witness : cellAt wBoardR.revealed 0 0 = true :=
  c5_flood_closure wBoard wBoardR 0 0 wBoard_reachable (by decide) (by decide)
    (by decide) (0, 0) (ZPath.refl (0, 0))

/-- Claim C6 counterexample: the C++ constructor takes only `rows`, `cols`
and `num_mines`; its randomness comes from an internally seeded
`std::mt19937(std::random_device{}())`, not from a caller-supplied generator.
Two constructions with identical `R, C, M` but different internal draws
produce different mine layouts, so the layout is not determined by the
constructor's actual parameters. -/
theorem c6_counterexample :
    (Minesweeper.construct 2 2 1 [(0, 0)]).map Minesweeper.minefield ≠
      (Minesweeper.construct 2 2 1 [(1, 1)]).map Minesweeper.minefield := by
  decide

/-- Claim C6 (amended): construction is deterministic in `R`, `C`, `M`
*together with the internal random draws*: two constructions that consume the
same entropy produce identical boards. The random source, however, is not a
constructor parameter in the code; it is drawn fresh inside the constructor. -/
theorem c6_deterministic (rows cols num_mines : Int) (entropy : List (Nat × Nat))
    (g1 g2 : Minesweeper) (h1 : construct rows cols num_mines entropy = some g1)
    (h2 : construct rows cols num_mines entropy = some g2) : g1 = g2 := by
  rw [h1] at h2
  exact Option.some_inj.mp h2

theorem c6_witness :
    Minesweeper.construct 2 2 1 [(0, 0)] = some g6Board ∧ g6Board = g6Board :=
  ⟨by decide, c6_deterministic 2 2 1 [(0, 0)] g6Board g6Board (by decide) (by decide)⟩

/-- Claim C7: `reveal` is idempotent on every reachable state and in-bounds
coordinate: `reveal(r,c); reveal(r,c)` produces exactly the state of a single
`reveal(r,c)`; in particular revealing an already-revealed cell is a no-op. -/
theorem c7_idempotent (g : Minesweeper) (r c : Int) (hre : Reachable g)
    (hb : InBounds g r c) :
    (reveal g r c).bind (fun g2 => reveal g2 r c) = reveal g r c := by
  obtain ⟨hws, hwc, hzc⟩ := reachable_inv hre
  obtain ⟨g2, h2⟩ := reveal_total hws hb
  rw [h2, Option.some_bind]
  have hws2 := reveal_wellShaped hws h2
  have hb2 : InBounds g2 r c := by
    obtain ⟨h1, hc1, _, _, _⟩ := reveal_fields h2
    show InRange g2.rows g2.cols (r, c)
    rw [h1, hc1]
    exact hb
  exact reveal_already hws2 hb2 (reveal_seed hws h2)

theorem c7_witness :
    (Minesweeper.reveal wBoard 0 0).bind (fun g2 => Minesweeper.reveal g2 0 0) =
      Minesweeper.reveal wBoard 0 0 :=
  c7_idempotent wBoard 0 0 wBoard_reachable (by decide)

/-- Claim C8: the revealed bitmap is monotone. Every cell starts hidden at
construction, and across any sequence of completed `reveal` calls no cell
ever goes from revealed back to hidden. -/
theorem c8_monotone :
    (∀ (rows cols num_mines : Int) (entropy : List (Nat × Nat)) (g0 : Minesweeper),
      construct rows cols num_mines entropy = some g0 →
      ∀ a b : Int, cellAt g0.revealed a b = false) ∧
    (∀ g g2 : Minesweeper, Relation.ReflTransGen Step g g2 →
      ∀ a b : Int, cellAt g.revealed a b = true → cellAt g2.revealed a b = true) := by
  constructor
  · intro rows cols num_mines entropy g0 hc a b
    exact (construct_shaped hc).2.2.2.2 a b
  · intro g g2 h a b hab
    induction h with
    | refl => exact hab
    | tail hsteps hstep ih =>
      rcases hstep with ⟨r, c, hr⟩
      exact reveal_mono hr a b ih

theorem c8_witness :
    cellAt wBoard.revealed 0 0 = false ∧ cellAt wBoardR.revealed 0 0 = true :=
  ⟨c8_monotone.1 1 1 0 [] wBoard wBoard_construct 0 0,
    c8_monotone.2 wBoardR wBoardR Relation.ReflTransGen.refl 0 0 (by decide)⟩

/-- Claim C9: revealing an in-bounds mine cell sets exactly that cell's
revealed flag and changes no other cell, and `is_game_over()` then returns
`true`. -/
theorem c9_mine_frame (g : Minesweeper) (r c : Int) (hre : Reachable g)
    (hb : InBounds g r c) (hm : cellAt g.minefield r c = true) :
    ∃ g2, reveal g r c = some g2 ∧ cellAt g2.revealed r c = true ∧
      (∀ a b : Int, ¬(a = r ∧ b = c) →
        cellAt g2.revealed a b = cellAt g.revealed a b) ∧
      is_game_over g2 = true := by
  obtain ⟨hws, _, _⟩ := reachable_inv hre
  have hmf := cellGet?_eq_some hws.2.2.1 hb
  rw [hm] at hmf
  have hrev : reveal g r c = some { g with revealed := setCell g.revealed r c true } := by
    unfold reveal
    rw [hmf]
  have h1 : (0 : Int) ≤ r := hb.1
  have h2 : r < g.rows := hb.2.1
  have h3 : (0 : Int) ≤ c := hb.2.2.1
  have h4 : c < g.cols := hb.2.2.2
  refine ⟨_, hrev, ?_, ?_, ?_⟩
  · exact cellAt_setCell_self hb.1 hb.2.2.1 (hb.row_lt hws.2.2.2.1)
      (hb.col_lt hws.2.2.2.1)
  · intro a b hab
    exact cellAt_setCell_ne hab
  · apply is_game_over_eq_true.mpr
    refine ⟨r.toNat, c.toNat, by show r.toNat < g.rows.toNat; omega,
      by show c.toNat < g.cols.toNat; omega, ?_, ?_⟩
    · rw [Int.toNat_of_nonneg h1, Int.toNat_of_nonneg h3]
      exact hm
    · rw [Int.toNat_of_nonneg h1, Int.toNat_of_nonneg h3]
      exact cellAt_setCell_self hb.1 hb.2.2.1 (hb.row_lt hws.2.2.2.1)
        (hb.col_lt hws.2.2.2.1)

theorem c9_witness :
    ∃ g2, Minesweeper.reveal exBoard 0 1 = some g2 ∧
      cellAt g2.revealed 0 1 = true ∧
      (∀ a b : Int, ¬(a = 0 ∧ b = 1) →
        cellAt g2.revealed a b = cellAt exBoard.revealed a b) ∧
      Minesweeper.is_game_over g2 = true :=
  c9_mine_frame exBoard 0 1 exBoard_reachable (by decide) (by decide)

/-- Claim C10: for every reachable state and in-bounds coordinate, the
flood-reveal worklist loop terminates: `reveal` completes with a defined
state. In the embedding the loop runs on explicit fuel `10·R·C + 2`, which
the proof shows is never exhausted, because each cell is revealed at most
once and each reveal pushes at most nine cells. -/
theorem c10_terminates (g : Minesweeper) (r c : Int) (hre : Reachable g)
    (hb : InBounds g r c) : ∃ g2, reveal g r c = some g2 :=
  reveal_total (reachable_inv hre).1 hb

theorem c10_witness : ∃ g2, Minesweeper.reveal wBoard 0 0 = some g2 :=
  c10_terminates wBoard 0 0 wBoard_reachable (by decide)

end Minesweeper

/-- Sanity check: entropy `(0, 0)` places the single mine at `(0, 0)`. -/
theorem construct_sample : Minesweeper.construct 2 2 1 [(0, 0)] =
    some { rows := 2, cols := 2, num_mines := 1,
           minefield := [[true, false], [false, false]],
           revealed := [[false, false], [false, false]],
           counts := [[-1, 1], [1, 1]] } := by decide

/-- Sanity check: revealing the safe cell of a 1×2 board reveals only it. -/
theorem reveal_sample :
    (Minesweeper.construct 1 2 1 [(0, 1)]).bind (fun g => Minesweeper.reveal g 0 0) =
    some { rows := 1, cols := 2, num_mines := 1,
           minefield := [[false, true]],
           revealed := [[true, false]],
           counts := [[1, -1]] } := by decide
